import Mathlib

/-!
# Verification of the Winamp → Discord presence bridge (`main.py`)

A shallow embedding of the polling presence-update pipeline:

* track-string parsing in `update_rpc` (split on `" - "`, drop the player
  name, `str.strip` the `"{index+1}. "` characters, rejoin the title),
* the playback-position sentinel (`pos >= 100000` seconds resets to `0`),
* the album-art resolver `get_album_art_url` with its Last.FM fallback
  chain (`get_album_from_track` → `get_album_from_artist` →
  `fallback_image_url` → `"logo"`), parameterised over the HTTP responses,
* `get_largest_image` (size-priority image pick),
* `clean_string` (regex noise removal and whitespace collapsing), and
* the poll loop's status state machine (`Paused` / `Stopped` / `Playing`).

Python strings are modelled as `String` / `List Char`; the float arithmetic
on playback positions is modelled exactly over `ℚ` (all values involved are
millisecond integers divided by `1000`, far below any float-precision
threshold, and only order comparisons and subtraction are performed).
-/

set_option autoImplicit false

namespace WinampRPC

/-! ## Splitting on the literal `" - "` (Python `str.split(" - ")`)

`splitDash` is Python's `trackinfo_raw.split(" - ")` specialised to the
three-character separator: a left-to-right scan taking the leftmost,
non-overlapping matches.  `joinDash` is `" - ".join(...)`. -/

/-- The separator `" - "` as a character list. -/
def sepChars : List Char := [' ', '-', ' ']

/-- Prepend a character onto the first chunk of a split result. -/
def consHead (c : Char) : List (List Char) → List (List Char)
  | [] => [[c]]
  | h :: t => (c :: h) :: t

/-- Python `s.split(" - ")` on a character list: leftmost-first,
non-overlapping occurrences of `" - "` separate the chunks. -/
def splitDash : List Char → List (List Char)
  | [] => [[]]
  | ' ' :: '-' :: ' ' :: rest => [] :: splitDash rest
  | c :: rest => consHead c (splitDash rest)

/-- Python `" - ".join(chunks)` on character lists. -/
def joinDash : List (List Char) → List Char
  | [] => []
  | [x] => x
  | x :: y :: t => x ++ sepChars ++ joinDash (y :: t)

/-! ## Python `str.strip(chars)`

`str.strip(chars)` removes from **both ends** every character that occurs in
`chars` (it is a character-set strip, not a prefix strip). -/

/-- Python `s.strip(chars)` on character lists. -/
def pyStripL (s chars : List Char) : List Char :=
  ((s.dropWhile (chars.contains ·)).reverse.dropWhile (chars.contains ·)).reverse

/-- Python `s.strip(chars)` on strings. -/
def pyStrip (s chars : String) : String :=
  String.mk (pyStripL s.toList chars.toList)

/-! ## The track-string parse inside `update_rpc` (main.py lines 43–46)

```python
trackinfo = trackinfo_raw.split(" - ")[:-1]
track_pos = w.get_playlist_position()
artist = trackinfo[0].strip(f"{track_pos + 1}. ")
track_name = " - ".join(trackinfo[1:])
```

`trackinfo[0]` on an empty list raises `IndexError` in Python; the parse is
embedded as an `Option` that is `none` exactly on that out-of-bounds access
(the raw string had fewer than 2 `" - "`-separated segments). -/

/-- Lines 43–46 of `update_rpc`: split on `" - "`, discard the final
segment (the player name), strip the `"{track_pos+1}. "` characters from
the first remaining segment to get the artist, rejoin the rest as the
title.  `none` models the `IndexError` of `trackinfo[0]` on `[]`. -/
def parseTrack (track_pos : Nat) (raw : String) : Option (String × String) :=
  match (splitDash raw.toList).dropLast with
  | [] => none
  | first :: rest =>
    some (pyStrip (String.mk first) (toString (track_pos + 1) ++ ". "),
          String.mk (joinDash rest))

/-! ## The playback-position sentinel (main.py lines 47, 51–52)

```python
pos = w.get_track_status()[1] / 1000   # milliseconds → seconds
if pos >= 100000:                      # "Sometimes this is over 4 million"
    pos = 0
```
-/

/-- Seconds-normalisation of the reported position: divide the millisecond
value by 1000 and reset to `0` when the result is at least `100000`. -/
def normPos (millis : ℚ) : ℚ :=
  let pos := millis / 1000
  if pos ≥ 100000 then 0 else pos

/-- Python `int()`: truncation toward zero (applied to `start`). -/
def pyInt (q : ℚ) : Int :=
  if 0 ≤ q then ⌊q⌋ else -⌊-q⌋

/-! ## The presence-update driver `update_rpc` (main.py lines 36–67) -/

/-- The mutable globals `previous_track` / `cleared` of `main.py`. -/
structure Session where
  previous_track : String
  cleared : Bool
  deriving Repr, DecidableEq

/-- One `rpc.update(...)` call (main.py lines 64–65). -/
structure Push where
  details : String
  state : String
  start : Int
  large_image : String
  small_image : String
  large_text : String
  small_text : String
  deriving Repr, DecidableEq

/-- Errors the tick can die with.  The source raises an uncaught
`IndexError` (`trackinfo[0]` on an empty list); `malformedTrackString` is
the recoverable error the specification's taxonomy asks for, which the
source never produces. -/
inductive UpdateError where
  | indexError
  | malformedTrackString
  deriving Repr, DecidableEq

/-- `update_rpc()`.  `largeAsset` stands for the large-asset branch chosen
once by configuration (lines 56–62: `get_album_art_url`, `get_album_art`,
or the static `("logo", "Winamp v…")` pair) — a total function from
`(artist, track_name)` to `(large_asset_key, large_asset_text)`.

If the raw title equals `previous_track` nothing happens (line 41).
Otherwise the track string is parsed (lines 42–46; an out-of-bounds
`trackinfo[0]` kills the process, embedded as `.error`), the short-title
pad and position sentinel are applied (lines 49–52), and `rpc.update` is
called (lines 64–65) followed by `cleared = False` (line 66).  The returned
session has `previous_track := raw` (line 42) and `cleared := false`. -/
def update_rpc (largeAsset : String → String → String × String)
    (small_asset_key small_asset_text : String)
    (raw : String) (track_pos : Nat) (millis now : ℚ) (s : Session) :
    Except UpdateError (Session × Option Push) :=
  if raw = s.previous_track then .ok (s, none)
  else
    match parseTrack track_pos raw with
    | none => .error .indexError
    | some (artist, name) =>
      let track_name := if name.length < 2 then "Track: " ++ name else name
      let pos := normPos millis
      let start := now - pos
      let (large_asset_key, large_asset_text) := largeAsset artist track_name
      .ok ({ previous_track := raw, cleared := false },
        some { details := track_name, state := "by " ++ artist,
               start := pyInt start,
               large_image := large_asset_key, small_image := small_asset_key,
               large_text := large_asset_text, small_text := small_asset_text })

/-! ## The poll loop's status state machine (main.py lines 309–318)

```python
while True:
    status = w.get_playing_status()
    if status == PlayingStatus.Paused or status == PlayingStatus.Stopped and not cleared:
        rpc.clear()
        previous_track = ""
        cleared = True
    elif status == PlayingStatus.Playing:
        update_rpc()
    time.sleep(1)
```

Python precedence parses the condition as
`Paused or (Stopped and not cleared)`. -/

/-- The `winamp.PlayingStatus` enumeration. -/
inductive PlayingStatus where
  | Playing
  | Paused
  | Stopped
  deriving Repr, DecidableEq

/-- Externally visible presence actions of one tick. -/
inductive Action where
  | clear
  | push (p : Push)
  deriving Repr, DecidableEq

/-- One iteration of the poll loop (without the sleep).  Inputs `raw`,
`track_pos`, `millis`, `now` are what the player/clock would answer if
`update_rpc` queries them this tick. -/
def tick (largeAsset : String → String → String × String)
    (small_asset_key small_asset_text : String)
    (status : PlayingStatus) (raw : String) (track_pos : Nat)
    (millis now : ℚ) (s : Session) : Except UpdateError (Session × List Action) :=
  if status = .Paused ∨ (status = .Stopped ∧ s.cleared = false) then
    .ok ({ previous_track := "", cleared := true }, [.clear])
  else if status = .Playing then
    (update_rpc largeAsset small_asset_key small_asset_text raw track_pos millis now s).map
      (fun r => (r.1, (r.2.map Action.push).toList))
  else
    .ok (s, [])

/-! ## `get_largest_image` (main.py lines 180–198)

A Last.FM image entry is a JSON object with a `size` label and a `#text`
url; `img.get(...)` returns `None` for a missing key, which is falsy like
the empty string, so both fields are modelled as strings with `""` for
"missing or empty". -/

/-- One entry of a Last.FM `image` array: `size` label and `#text` url. -/
structure Image where
  size : String
  url : String
  deriving Repr, DecidableEq

/-- Lines 186–191: the outer `for size in size_priority` loop; for each
size label return the url of the first image with that label and a truthy
`#text`. -/
def prioritySearch : List String → List Image → Option String
  | [], _ => none
  | sz :: rest, images =>
    match images.find? (fun img => img.size == sz && img.url != "") with
    | some img => some img.url
    | none => prioritySearch rest images

/-- `get_largest_image(images)`: `None` on an empty array; otherwise the
priority scan over `['extralarge', 'large', 'medium', 'small']`, then the
fallback `for img in images: if img.get('#text')` loop, then `None`. -/
def get_largest_image (images : List Image) : Option String :=
  if images.isEmpty then none
  else
    match prioritySearch ["extralarge", "large", "medium", "small"] images with
    | some url => some url
    | none =>
      match images.find? (fun img => img.url != "") with
      | some img => some img.url
      | none => none

/-- Image-set resolution as claim C5 words it: pick by the priority order
`extralarge > large > medium > small` among entries with a non-empty url;
if no entry matches any of those labels, the first entry with a non-empty
url; else none. -/
def specImagePick (images : List Image) : Option String :=
  match images.find? (fun img => img.size == "extralarge" && img.url != "") with
  | some img => some img.url
  | none =>
    match images.find? (fun img => img.size == "large" && img.url != "") with
    | some img => some img.url
    | none =>
      match images.find? (fun img => img.size == "medium" && img.url != "") with
      | some img => some img.url
      | none =>
        match images.find? (fun img => img.size == "small" && img.url != "") with
        | some img => some img.url
        | none => (images.find? (fun img => img.url != "")).map Image.url

/-! ## `clean_string` (main.py lines 106–112)

```python
text = re.sub(r'\(.*?\)', '', text)
text = re.sub(r'\[.*?\]', '', text)
text = re.sub(r'\s+', ' ', text)
return text.strip()
```

`re.sub` scans left to right replacing non-overlapping matches.  The lazy
pattern `\(.*?\)` matches from a `(` up to the *nearest* following `)`,
and `.` does not match a newline, so a `(`…`)` pair separated by `'\n'` is
not a match.  `rmv op cl` embeds one such pass. -/

/-- Scan for the nearest closing character; `.` in the lazy regex does not
match `'\n'`, so the scan aborts at a newline.  Returns the tail after the
closing character when a match exists. -/
def findClose (cl : Char) : List Char → Option (List Char)
  | [] => none
  | c :: rest =>
    if c = cl then some rest
    else if c = '\n' then none
    else findClose cl rest

theorem findClose_length {cl : Char} :
    ∀ {l r : List Char}, findClose cl l = some r → r.length < l.length := by
  intro l
  induction l with
  | nil => intro r h; simp [findClose] at h
  | cons c rest ih =>
    intro r h
    rw [findClose] at h
    split at h
    · cases h; simp
    · split at h
      · cases h
      · exact Nat.lt_trans (ih h) (by simp)

/-- One `re.sub` pass removing every lazy `op…cl` group (no newline in
between), scanning left to right over non-overlapping matches. -/
def rmv (op cl : Char) (l : List Char) : List Char :=
  match l with
  | [] => []
  | c :: rest =>
    if c = op then
      match hfc : findClose cl rest with
      | some after => rmv op cl after
      | none => c :: rmv op cl rest
    else c :: rmv op cl rest
termination_by l.length
decreasing_by
  · exact Nat.lt_trans (findClose_length hfc) (by simp)
  · simp
  · simp

/-- Python `\s` (ASCII range): space, tab, newline, carriage return,
vertical tab, form feed. -/
def isSpacePy (c : Char) : Bool :=
  c = ' ' || c = '\t' || c = '\n' || c = '\r' || c = '\x0b' || c = '\x0c'

/-- `re.sub(r'\s+', ' ', text)`: replace every maximal whitespace run with
a single space. -/
def collapseWS (l : List Char) : List Char :=
  match l with
  | [] => []
  | c :: rest =>
    if isSpacePy c then ' ' :: collapseWS (rest.dropWhile isSpacePy)
    else c :: collapseWS rest
termination_by l.length
decreasing_by
  · exact Nat.lt_succ_of_le (rest.dropWhile_sublist isSpacePy).length_le
  · simp

/-- `text.strip()`: drop whitespace from both ends. -/
def stripWS (l : List Char) : List Char :=
  ((l.dropWhile isSpacePy).reverse.dropWhile isSpacePy).reverse

/-- `clean_string(text)`: parenthesised groups removed, bracketed groups
removed, whitespace runs collapsed, ends stripped. -/
def clean_string (text : String) : String :=
  String.mk (stripWS (collapseWS (rmv '[' ']' (rmv '(' ')' text.toList))))

/-! ## The remote artwork resolver (main.py lines 69–177)

The two Last.FM HTTP calls are modelled by their outcome: `.error` for any
exception out of `requests.get`/`.json()` (network failure, timeout, parse
failure), `.ok none` for a response without the expected
`track.album` / `topalbums.album` key chain, and `.ok (some …)` for the
extracted album data.  `album.get('title', '')` / `album.get('name', '')`
is the `title` field, `album.get('image', [])` the `image` field. -/

/-- Extracted album data of a Last.FM response. -/
structure Album where
  title : String
  image : List Image
  deriving Repr, DecidableEq

/-- `get_album_from_track` (lines 115–143): on an exception or a missing
`track.album`, `(None, None)`; otherwise the album title and the largest
image. -/
def get_album_from_track (resp : Except String (Option Album)) :
    Option String × Option String :=
  match resp with
  | .error _ => (none, none)
  | .ok none => (none, none)
  | .ok (some album) => (some album.title, get_largest_image album.image)

/-- `get_album_from_artist` (lines 146–177): on an exception, a missing
`topalbums.album`, or an empty album list, `(None, None)`; otherwise the
first (top) album's name and largest image.  (A single-object `album`
value, the `isinstance` branch, is a one-element list.) -/
def get_album_from_artist (resp : Except String (Option (List Album))) :
    Option String × Option String :=
  match resp with
  | .error _ => (none, none)
  | .ok none => (none, none)
  | .ok (some []) => (none, none)
  | .ok (some (album :: _)) => (some album.title, get_largest_image album.image)

/-- Python truthiness of an optional string: `None` and `""` are falsy. -/
def truthyS : Option String → Bool
  | none => false
  | some s => s != ""

/-- `get_album_art_url(artist, track_name)` (lines 69–103), parameterised
by the configured `fallback_image_url` and by the outcomes of the two
Last.FM calls.  The cleaned names only parameterise the HTTP requests,
which are modelled by `trackResp`/`artistResp`; every exception inside the
helpers is already caught there, so the outer `except` branch (line 103)
is unreachable and the function is total. -/
def get_album_art_url (fallback_image_url artist track_name : String)
    (trackResp : Except String (Option Album))
    (artistResp : Except String (Option (List Album))) : String × String :=
  let _artist_clean := clean_string artist
  let _track_clean := clean_string track_name
  let res1 := get_album_from_track trackResp
  let res :=
    if !truthyS res1.1 || !truthyS res1.2 then get_album_from_artist artistResp
    else res1
  let large_asset_text :=
    match res.1 with
    | some s => if s != "" then s else artist
    | none => artist
  let image_url :=
    match res.2 with
    | some u => if u != "" then u else (if fallback_image_url != "" then fallback_image_url else "logo")
    | none => if fallback_image_url != "" then fallback_image_url else "logo"
  let large_asset_text :=
    if large_asset_text.length < 2 then "Album: " ++ large_asset_text
    else large_asset_text
  (image_url, large_asset_text)

/-- Decidable equality of tick results, for evaluating concrete runs. -/
instance {ε α : Type} [DecidableEq ε] [DecidableEq α] : DecidableEq (Except ε α)
  | .error e, .error f =>
    if h : e = f then .isTrue (by rw [h]) else .isFalse (by simp [h])
  | .error _, .ok _ => .isFalse (by simp)
  | .ok _, .error _ => .isFalse (by simp)
  | .ok a, .ok b =>
    if h : a = b then .isTrue (by rw [h]) else .isFalse (by simp [h])

/-! ## Predicates used by the verification -/

/-- Hygiene condition on a single segment: splitting it returns it whole
(it contains no `" - "` occurrence), and it does not end in `" -"` (a
trailing `" -"` would fuse with a following separator into an earlier,
shifted match). -/
def segOk (m : List Char) : Bool :=
  splitDash m == [m] && !(List.isSuffixOf [' ', '-'] m)

/-- No `op` is followed (anywhere later in the list) by a `cl`. -/
def PairFree (op cl : Char) (l : List Char) : Prop := ¬ [op, cl].Sublist l

/-- Characterisation of `collapseWS`-fixpoints: no two adjacent whitespace
characters, and every whitespace character is a plain space. -/
def wsOK (l : List Char) : Prop :=
  List.Chain' (fun a b => ¬(isSpacePy a = true ∧ isSpacePy b = true)) l
  ∧ ∀ c ∈ l, isSpacePy c = true → c = ' '

/-! ## Helper lemma suites: `rmv`, `collapseWS`, `stripWS` -/

theorem rmv_nil (op cl : Char) : rmv op cl [] = [] := by rw [rmv]

theorem rmv_cons_op_some {op cl : Char} {rest after : List Char}
    (hfc : findClose cl rest = some after) :
    rmv op cl (op :: rest) = rmv op cl after := by
  rw [rmv, if_pos rfl]
  split
  · rename_i a hfc'
    rw [hfc] at hfc'
    injection hfc' with h
    rw [h]
  · rename_i hfc'
    rw [hfc] at hfc'
    cases hfc'

theorem rmv_cons_op_none {op cl : Char} {rest : List Char}
    (hfc : findClose cl rest = none) :
    rmv op cl (op :: rest) = op :: rmv op cl rest := by
  rw [rmv, if_pos rfl]
  split
  · rename_i a hfc'
    rw [hfc] at hfc'
    cases hfc'
  · rfl

theorem rmv_cons_ne {op cl c : Char} {rest : List Char} (hne : c ≠ op) :
    rmv op cl (c :: rest) = c :: rmv op cl rest := by
  rw [rmv, if_neg hne]

theorem findClose_suffix {cl : Char} :
    ∀ {l r : List Char}, findClose cl l = some r → r.Sublist l := by
  intro l
  induction l with
  | nil => intro r h; simp [findClose] at h
  | cons c rest ih =>
    intro r h
    rw [findClose] at h
    split at h
    · cases h; exact List.sublist_cons_self c rest
    · split at h
      · cases h
      · exact (ih h).trans (List.sublist_cons_self c rest)

theorem rmv_sublist (op cl : Char) (l : List Char) : (rmv op cl l).Sublist l := by
  induction l using rmv.induct op cl with
  | case1 => rw [rmv_nil]
  | case2 rest after hfc ih =>
    rw [rmv_cons_op_some hfc]
    exact (ih.trans (findClose_suffix hfc)).trans (List.sublist_cons_self op rest)
  | case3 rest hfc ih =>
    rw [rmv_cons_op_none hfc]
    exact List.Sublist.cons₂ op ih
  | case4 c rest hne ih =>
    rw [rmv_cons_ne hne]
    exact List.Sublist.cons₂ c ih

theorem pairFree_of_sublist {op cl : Char} {l' l : List Char}
    (hsub : l'.Sublist l) (h : PairFree op cl l) : PairFree op cl l' :=
  fun hcontra => h (hcontra.trans hsub)

theorem not_mem_of_findClose_none {cl : Char} :
    ∀ {l : List Char}, '\n' ∉ l → findClose cl l = none → cl ∉ l := by
  intro l
  induction l with
  | nil => intro _ _; simp
  | cons c rest ih =>
    intro hnl h
    rw [findClose] at h
    rw [List.mem_cons, not_or] at hnl ⊢
    split at h
    · cases h
    · rename_i hc
      split at h
      · rename_i hn
        exact absurd hn.symm hnl.1
      · exact ⟨fun hcc => hc hcc.symm, ih hnl.2 h⟩

theorem findClose_some_mem {cl : Char} :
    ∀ {l r : List Char}, findClose cl l = some r → cl ∈ l := by
  intro l
  induction l with
  | nil => intro r h; simp [findClose] at h
  | cons c rest ih =>
    intro r h
    rw [findClose] at h
    split at h
    · rename_i hc; simp [hc]
    · split at h
      · cases h
      · exact List.mem_cons_of_mem c (ih h)

theorem rmv_eq_self {op cl : Char} :
    ∀ {l : List Char}, PairFree op cl l → rmv op cl l = l := by
  intro l
  induction l using rmv.induct op cl with
  | case1 => intro _; rw [rmv_nil]
  | case2 rest after hfc ih =>
    intro h
    exact absurd (List.cons_sublist_cons.mpr
      (List.singleton_sublist.mpr (findClose_some_mem hfc))) h
  | case3 rest hfc ih =>
    intro h
    rw [rmv_cons_op_none hfc,
      ih (pairFree_of_sublist (List.sublist_cons_self op rest) h)]
  | case4 c rest hne ih =>
    intro h
    rw [rmv_cons_ne hne,
      ih (pairFree_of_sublist (List.sublist_cons_self c rest) h)]

theorem pairFree_rmv {op cl : Char} :
    ∀ {l : List Char}, '\n' ∉ l → PairFree op cl (rmv op cl l) := by
  intro l
  induction l using rmv.induct op cl with
  | case1 => intro _ h; rw [rmv_nil] at h; cases h
  | case2 rest after hfc ih =>
    intro hnl
    rw [rmv_cons_op_some hfc]
    refine ih (fun hmem => hnl ?_)
    exact List.mem_cons_of_mem op (((findClose_suffix hfc).subset) hmem)
  | case3 rest hfc ih =>
    intro hnl
    rw [List.mem_cons, not_or] at hnl
    rw [rmv_cons_op_none hfc]
    intro hcontra
    have hclrest : cl ∉ rest := not_mem_of_findClose_none hnl.2 hfc
    cases hcontra with
    | cons _ htail =>
      exact ih hnl.2 htail
    | cons₂ _ htail =>
      exact hclrest ((rmv_sublist op cl rest).subset (List.singleton_sublist.mp htail))
  | case4 c rest hne ih =>
    intro hnl
    rw [List.mem_cons, not_or] at hnl
    rw [rmv_cons_ne hne]
    intro hcontra
    cases hcontra with
    | cons _ htail => exact ih hnl.2 htail
    | cons₂ _ htail => exact hne rfl

theorem cw_nil : collapseWS [] = [] := by rw [collapseWS]

theorem cw_cons_space {c : Char} {rest : List Char} (h : isSpacePy c = true) :
    collapseWS (c :: rest) = ' ' :: collapseWS (rest.dropWhile isSpacePy) := by
  rw [collapseWS, if_pos h]

theorem cw_cons_nonspace {c : Char} {rest : List Char} (h : isSpacePy c = false) :
    collapseWS (c :: rest) = c :: collapseWS rest := by
  rw [collapseWS, if_neg (by simp [h])]

theorem dws_head_false {c : Char} {t : List Char} :
    ∀ {l : List Char}, l.dropWhile isSpacePy = c :: t → isSpacePy c = false := by
  intro l
  induction l with
  | nil => intro h; cases h
  | cons a rest ih =>
    intro h
    rw [List.dropWhile_cons] at h
    split at h
    · exact ih h
    · rename_i ha
      injection h with h1 _
      subst h1
      simpa using ha

theorem dws_eq_self_of_head {c : Char} {l : List Char}
    (hh : l.head? = some c) (hc : isSpacePy c = false) :
    l.dropWhile isSpacePy = l := by
  cases l with
  | nil => cases hh
  | cons a t =>
    rw [List.head?_cons] at hh
    injection hh with h1
    subst h1
    rw [List.dropWhile_cons, if_neg (by simp [hc])]

theorem dws_idem (l : List Char) :
    (l.dropWhile isSpacePy).dropWhile isSpacePy = l.dropWhile isSpacePy := by
  cases h : l.dropWhile isSpacePy with
  | nil => rfl
  | cons c t =>
    rw [List.dropWhile_cons, if_neg (by simp [dws_head_false h])]

theorem filter_dws (l : List Char) :
    (l.dropWhile isSpacePy).filter (fun c => !isSpacePy c)
      = l.filter (fun c => !isSpacePy c) := by
  induction l with
  | nil => rfl
  | cons a rest ih =>
    rw [List.dropWhile_cons]
    split
    · rename_i ha
      rw [ih, List.filter_cons, if_neg (by simp [ha])]
    · rfl

theorem collapseWS_filter (l : List Char) :
    (collapseWS l).filter (fun c => !isSpacePy c)
      = l.filter (fun c => !isSpacePy c) := by
  induction l using collapseWS.induct with
  | case1 => rw [cw_nil]
  | case2 c rest hsp ih =>
    rw [cw_cons_space hsp, List.filter_cons, List.filter_cons]
    rw [if_neg (by decide), if_neg (by simp [hsp]), ih, filter_dws]
  | case3 c rest hsp ih =>
    have hf : isSpacePy c = false := by simpa using hsp
    rw [cw_cons_nonspace hf, List.filter_cons, List.filter_cons, ih]

theorem pairFree_collapseWS {op cl : Char} {l : List Char}
    (hop : isSpacePy op = false) (hcl : isSpacePy cl = false)
    (h : PairFree op cl l) : PairFree op cl (collapseWS l) := by
  intro hcontra
  have h2 : ([op, cl].filter (fun c => !isSpacePy c)) = [op, cl] := by
    simp [hop, hcl]
  have h3 := hcontra.filter (fun c => !isSpacePy c)
  rw [h2, collapseWS_filter] at h3
  exact h (h3.trans (List.filter_sublist l))

theorem dws_collapse_dws (l : List Char) :
    (collapseWS (l.dropWhile isSpacePy)).dropWhile isSpacePy
      = collapseWS (l.dropWhile isSpacePy) := by
  cases h : l.dropWhile isSpacePy with
  | nil => rw [cw_nil]; rfl
  | cons c t =>
    have hc := dws_head_false h
    rw [cw_cons_nonspace hc, List.dropWhile_cons, if_neg (by simp [hc])]

theorem collapseWS_idem (l : List Char) :
    collapseWS (collapseWS l) = collapseWS l := by
  induction l using collapseWS.induct with
  | case1 => rw [cw_nil, cw_nil]
  | case2 c rest hsp ih =>
    rw [cw_cons_space hsp, cw_cons_space (by decide : isSpacePy ' ' = true),
      dws_collapse_dws, ih]
  | case3 c rest hsp ih =>
    have hf : isSpacePy c = false := by simpa using hsp
    rw [cw_cons_nonspace hf, cw_cons_nonspace hf, ih]

theorem collapsed_dws {l : List Char} (h : collapseWS l = l) :
    collapseWS (l.dropWhile isSpacePy) = l.dropWhile isSpacePy := by
  cases l with
  | nil => rw [List.dropWhile_nil, cw_nil]
  | cons c t =>
    by_cases hsp : isSpacePy c = true
    · rw [cw_cons_space hsp] at h
      injection h with h1 h2
      have hdt : t.dropWhile isSpacePy = t := by
        conv_lhs => rw [← h2]
        rw [dws_collapse_dws, h2]
      rw [List.dropWhile_cons, if_pos hsp, hdt]
      rw [hdt] at h2
      exact h2
    · have hf : isSpacePy c = false := by simpa using hsp
      rw [cw_cons_nonspace hf] at h
      injection h with h1 h2
      rw [List.dropWhile_cons, if_neg (by simp [hf]), cw_cons_nonspace hf, h2]

theorem collapsed_iff : ∀ l : List Char, collapseWS l = l ↔ wsOK l := by
  intro l
  induction l with
  | nil =>
    simp [wsOK, cw_nil]
  | cons c t ih =>
    constructor
    · intro h
      by_cases hsp : isSpacePy c = true
      · rw [cw_cons_space hsp] at h
        injection h with h1 h2
        have hdt : t.dropWhile isSpacePy = t := by
          conv_lhs => rw [← h2]
          rw [dws_collapse_dws, h2]
        rw [hdt] at h2
        obtain ⟨hch, hmem⟩ := ih.mp h2
        refine ⟨?_, ?_⟩
        · rw [List.chain'_cons']
          refine ⟨?_, hch⟩
          intro y hy
          cases t with
          | nil => cases hy
          | cons b t' =>
            rw [List.head?_cons, Option.mem_def] at hy
            injection hy with hyb
            subst hyb
            have hb : isSpacePy b = false := by
              by_contra hbb
              rw [Bool.not_eq_false] at hbb
              rw [List.dropWhile_cons, if_pos hbb] at hdt
              have hlen := congrArg List.length hdt
              have := (t'.dropWhile_sublist isSpacePy).length_le
              simp at hlen
              omega
            intro hand
            rw [hb] at hand
            cases hand.2
        · intro d hd hspd
          rcases List.mem_cons.mp hd with hdc | hdt'
          · subst hdc; exact h1.symm ▸ rfl
          · exact hmem d hdt' hspd
      · have hf : isSpacePy c = false := by simpa using hsp
        rw [cw_cons_nonspace hf] at h
        injection h with h1 h2
        obtain ⟨hch, hmem⟩ := ih.mp h2
        refine ⟨?_, ?_⟩
        · rw [List.chain'_cons']
          refine ⟨?_, hch⟩
          intro y _ hand
          exact absurd hand.1 (by simp [hf])
        · intro d hd hspd
          rcases List.mem_cons.mp hd with hdc | hdt'
          · subst hdc; rw [hf] at hspd; cases hspd
          · exact hmem d hdt' hspd
    · rintro ⟨hch, hmem⟩
      have hihr : collapseWS t = t :=
        ih.mpr ⟨hch.tail, fun d hd => hmem d (List.mem_cons_of_mem c hd)⟩
      by_cases hsp : isSpacePy c = true
      · have hc : c = ' ' := hmem c (by simp) hsp
        have hdt : t.dropWhile isSpacePy = t := by
          cases t with
          | nil => rfl
          | cons b t' =>
            have hR := (List.chain'_cons.mp hch).1
            have hb : isSpacePy b = false := by
              by_contra hbb
              rw [Bool.not_eq_false] at hbb
              exact hR ⟨hsp, hbb⟩
            rw [List.dropWhile_cons, if_neg (by simp [hb])]
        rw [cw_cons_space hsp, hdt, hihr, hc]
      · have hf : isSpacePy c = false := by simpa using hsp
        rw [cw_cons_nonspace hf, hihr]

theorem collapsed_reverse {l : List Char} (h : collapseWS l = l) :
    collapseWS l.reverse = l.reverse := by
  rw [collapsed_iff] at h ⊢
  obtain ⟨hch, hmem⟩ := h
  refine ⟨?_, fun c hc => hmem c (List.mem_reverse.mp hc)⟩
  rw [List.chain'_reverse]
  exact hch.imp (fun a b hab hba => hab ⟨hba.2, hba.1⟩)

theorem dws_reverse_dws (u : List Char) (hu : u.dropWhile isSpacePy = u) :
    ((u.reverse.dropWhile isSpacePy).reverse).dropWhile isSpacePy
      = (u.reverse.dropWhile isSpacePy).reverse := by
  cases hv : u.reverse.dropWhile isSpacePy with
  | nil => simp
  | cons d vt =>
    obtain ⟨pre, hpre⟩ := List.dropWhile_suffix (l := u.reverse) isSpacePy
    rw [hv] at hpre
    have hlast : (d :: vt).getLast? = u.head? := by
      calc (d :: vt).getLast? = (pre ++ d :: vt).getLast? :=
            (List.getLast?_append_of_ne_nil pre (by simp)).symm
        _ = u.reverse.getLast? := by rw [hpre]
        _ = u.head? := List.getLast?_reverse u
    cases u with
    | nil => simp at hpre
    | cons c ut =>
      have hcu : isSpacePy c = false := by
        rw [List.dropWhile_cons] at hu
        split at hu
        · rename_i hct
          have hlen := congrArg List.length hu
          have := (ut.dropWhile_sublist isSpacePy).length_le
          simp at hlen
          omega
        · rename_i hcf
          simpa using hcf
      have hh : ((d :: vt).reverse).head? = some c := by
        rw [List.head?_reverse, hlast, List.head?_cons]
      exact dws_eq_self_of_head hh hcu

theorem dws_stripWS (l : List Char) :
    (stripWS l).dropWhile isSpacePy = stripWS l :=
  dws_reverse_dws (l.dropWhile isSpacePy) (dws_idem l)

theorem stripWS_idem (l : List Char) : stripWS (stripWS l) = stripWS l := by
  have h1 : stripWS (stripWS l)
      = ((stripWS l).reverse.dropWhile isSpacePy).reverse := by
    rw [stripWS, dws_stripWS]
  have h2 : (stripWS l).reverse
      = ((l.dropWhile isSpacePy).reverse.dropWhile isSpacePy) := by
    rw [stripWS, List.reverse_reverse]
  rw [h1, h2, dws_idem]
  rw [stripWS]

theorem stripWS_sublist (l : List Char) : (stripWS l).Sublist l := by
  have h1 : ((l.dropWhile isSpacePy).reverse.dropWhile isSpacePy).Sublist
      (l.dropWhile isSpacePy).reverse := (List.dropWhile_suffix isSpacePy).sublist
  have h2 := h1.reverse
  rw [List.reverse_reverse] at h2
  have h3 : (l.dropWhile isSpacePy).Sublist l :=
    (List.dropWhile_suffix isSpacePy).sublist
  have h4 : stripWS l
      = ((l.dropWhile isSpacePy).reverse.dropWhile isSpacePy).reverse := rfl
  rw [h4]
  exact h2.trans h3

/-! ## Claim C1: the playback-position sentinel -/

/-- C1, counterexample.  The claim says an input position of `4000000`
milliseconds is normalized to `0` seconds.  In the code, `4000000 ms`
becomes `4000 s`, which is below the `100000 s` sentinel threshold and is
**not** reset: the driver normalizes it to `4000`, not `0`. -/
theorem normPos_4000000_ms_is_4000_s :
    normPos 4000000 = 4000 ∧ (4000 : ℚ) ≠ 0 := by
  refine ⟨by norm_num [normPos], by norm_num⟩

/-- C1, amended.  The sentinel reset to `0` fires exactly for raw positions
of at least `100000000` milliseconds (`100000` seconds); `4000000 ms` is
normalized to `4000 s` (not reset), while e.g. `400000000 ms` is reset to
`0` before `start = now - pos` is computed. -/
theorem normPos_sentinel_spec :
    (∀ millis : ℚ, normPos millis = if 100000000 ≤ millis then 0 else millis / 1000)
    ∧ normPos 400000000 = 0 ∧ normPos 4000000 = 4000 := by
  refine ⟨fun millis => ?_, by norm_num [normPos], by norm_num [normPos]⟩
  have h : (100000 : ℚ) ≤ millis / 1000 ↔ 100000000 ≤ millis := by
    rw [le_div_iff₀ (by norm_num : (0 : ℚ) < 1000)]
    norm_num
  simp only [normPos, ge_iff_le, h]

/-! ## Claim C2: the `"{index+1}. "` prefix strip -/

/-- C2.  The claim says only the literal leading `"{index+1}. "` prefix is
removed from the first segment, leaving the artist name intact.  The code
uses Python `str.strip`, which removes the *character set*
`{digits of index+1, '.', ' '}` from **both** ends: at playlist position 1
(displayed index 2) the segment `"2. Blink-182"` yields `"Blink-18"` — the
trailing `'2'` of the artist is eaten as well. -/
theorem strip_eats_artist_tail :
    parseTrack 1 "2. Blink-182 - Song - Winamp" = some ("Blink-18", "Song")
    ∧ "Blink-18" ≠ "Blink-182" := by
  refine ⟨by decide, by decide⟩

/-! ## Claim C3: fewer than 2 segments -/

/-- C3.  On a raw string with fewer than 2 `" - "`-delimited segments,
`trackinfo_raw.split(" - ")[:-1]` is empty and `trackinfo[0]` raises an
uncaught `IndexError` (which kills the poll loop); no recoverable
`MalformedTrackString` error exists in the code. -/
theorem malformed_string_hits_index_error :
    (∀ (la : String → String → String × String) (sk st : String)
       (pos : Nat) (millis now : ℚ),
       update_rpc la sk st "NoDelims" pos millis now ⟨"", false⟩
         = .error .indexError)
    ∧ UpdateError.indexError ≠ UpdateError.malformedTrackString := by
  refine ⟨fun la sk st pos millis now => ?_, by decide⟩
  have hparse : parseTrack pos "NoDelims" = none := rfl
  simp [update_rpc, hparse]

/-! ## Claim C4: the Paused/Stopped clear policy -/

/-- C4.  `status == Paused or status == Stopped and not cleared` parses as
`Paused ∨ (Stopped ∧ ¬cleared)`: a `Paused` tick always clears (also when
`cleared` already holds, so `Playing→Paused→Paused` clears on both paused
ticks), a `Stopped` tick clears only while `cleared == false`, and a
`Playing` tick never emits a clear. -/
theorem clear_policy :
    (∀ la sk st raw pos millis now (s : Session),
        tick la sk st .Paused raw pos millis now s
          = .ok (⟨"", true⟩, [.clear]))
    ∧ (∀ la sk st raw pos millis now (s : Session), s.cleared = false →
        tick la sk st .Stopped raw pos millis now s
          = .ok (⟨"", true⟩, [.clear]))
    ∧ (∀ la sk st raw pos millis now (s : Session), s.cleared = true →
        tick la sk st .Stopped raw pos millis now s = .ok (s, []))
    ∧ (∀ la sk st raw pos millis now (s s' : Session) acts,
        tick la sk st .Playing raw pos millis now s = .ok (s', acts) →
        Action.clear ∉ acts) := by
  refine ⟨fun la sk st raw pos millis now s => by simp [tick],
          fun la sk st raw pos millis now s h => by simp [tick, h],
          fun la sk st raw pos millis now s h => by simp [tick, h],
          fun la sk st raw pos millis now s s' acts h => ?_⟩
  simp only [tick, reduceCtorEq, false_and, or_self, if_false, if_true,
    reduceIte] at h
  rcases hu : update_rpc la sk st raw pos millis now s with e | r
  · rw [hu] at h; exact absurd h (by simp [Except.map])
  · rw [hu] at h
    simp only [Except.map, Except.ok.injEq, Prod.mk.injEq] at h
    obtain ⟨-, rfl⟩ := h
    rcases r.2 with - | p <;> simp

/-- C4, witness: concrete ticks exercising each hypothesis of
`clear_policy`. -/
theorem clear_policy_witness :
    tick (fun a t => (a, t)) "pb" "P" .Stopped "x" 0 0 0 ⟨"x", false⟩
      = .ok (⟨"", true⟩, [.clear])
    ∧ tick (fun a t => (a, t)) "pb" "P" .Stopped "x" 0 0 0 ⟨"", true⟩
      = .ok (⟨"", true⟩, [])
    ∧ Action.clear ∉ ([] : List Action) :=
  ⟨clear_policy.2.1 _ _ _ _ _ _ _ _ rfl,
   clear_policy.2.2.1 _ _ _ _ _ _ _ _ rfl,
   clear_policy.2.2.2 (fun a t => (a, t)) "pb" "P" "x" 0 0 0 ⟨"x", false⟩
     ⟨"x", false⟩ [] (by simp [tick, update_rpc, Except.map])⟩

/-! ## Claim C5: image-set resolution -/

/-- C5.  `get_largest_image` picks by the priority order
`extralarge > large > medium > small` among entries with a non-empty url,
falls back to the first entry with a non-empty url, else `none`; in
particular `[{size:large,url:A},{size:extralarge,url:B}]` resolves to `B`. -/
theorem largest_image_priority :
    (∀ images : List Image, get_largest_image images = specImagePick images)
    ∧ get_largest_image [⟨"large", "A"⟩, ⟨"extralarge", "B"⟩] = some "B" := by
  constructor
  · intro images
    cases images with
    | nil => rfl
    | cons img rest =>
      rw [get_largest_image, if_neg (by simp)]
      simp only [prioritySearch, specImagePick]
      rcases h1 : (img :: rest).find? (fun i => i.size == "extralarge" && i.url != "")
        with - | i1 <;> simp only [h1]
      rcases h2 : (img :: rest).find? (fun i => i.size == "large" && i.url != "")
        with - | i2 <;> simp only [h2]
      rcases h3 : (img :: rest).find? (fun i => i.size == "medium" && i.url != "")
        with - | i3 <;> simp only [h3]
      rcases h4 : (img :: rest).find? (fun i => i.size == "small" && i.url != "")
        with - | i4 <;> simp only [h4]
      rcases h5 : (img :: rest).find? (fun i => i.url != "")
        with - | i5 <;> simp only [h5] <;> simp [Option.map]
  · decide

/-! ## Claim C6: the remote resolver's failure behaviour -/

/-- C6, counterexample.  On total failure the resolver does not always
return the original artist name: the final `len(large_asset_text) < 2`
pad (line 96–97) also applies to the artist fallback, so artist `"X"`
comes back as `"Album: X"`. -/
theorem resolver_total_failure_pads_short_artist :
    get_album_art_url "" "X" "t" (.error "net") (.error "net")
      = ("logo", "Album: X")
    ∧ ("Album: X" : String) ≠ "X" := by
  exact ⟨rfl, by decide⟩

/-- C6, amended.  The resolver is a total function of the two modelled
call outcomes (every exception inside the helpers is caught there and the
outer `except` is unreachable); a failing track tier degrades exactly to
the artist tier, and on total failure the result is
(`fallback_image_url` if non-empty else `"logo"`, the original artist
name, `"Album: "`-prefixed when shorter than 2 characters). -/
theorem resolver_total_failure :
    (∀ (fallback artist track e1 : String)
       (aResp : Except String (Option (List Album))),
       get_album_art_url fallback artist track (.error e1) aResp
         = get_album_art_url fallback artist track (.ok none) aResp)
    ∧ (∀ fallback artist track e1 e2 : String,
       get_album_art_url fallback artist track (.error e1) (.error e2)
         = ((if fallback != "" then fallback else "logo"),
            (if artist.length < 2 then "Album: " ++ artist else artist))) := by
  constructor
  · intro fallback artist track e1 aResp
    rfl
  · intro fallback artist track e1 e2
    simp only [get_album_art_url, get_album_from_track, get_album_from_artist,
      truthyS]
    simp

/-! ## Claim C7: unchanged-track no-op -/

/-- C7.  When the raw now-playing string equals the stored previous one,
`update_rpc` does nothing: no push, session unchanged.  Consequently a
second call with the same raw title after a successful push is a no-op, so
two identical calls trigger exactly one push. -/
theorem unchanged_track_noop :
    (∀ la sk st raw pos millis now (s : Session), raw = s.previous_track →
        update_rpc la sk st raw pos millis now s = .ok (s, none))
    ∧ (∀ la sk st raw pos millis now pos' millis' now' (s s1 : Session) p,
        update_rpc la sk st raw pos millis now s = .ok (s1, some p) →
        update_rpc la sk st raw pos' millis' now' s1 = .ok (s1, none)) := by
  constructor
  · intro la sk st raw pos millis now s h
    simp [update_rpc, h]
  · intro la sk st raw pos millis now pos' millis' now' s s1 p h
    by_cases hprev : raw = s.previous_track
    · simp [update_rpc, hprev] at h
    · simp only [update_rpc, hprev, if_false, reduceIte] at h
      rcases hp : parseTrack pos raw with - | ⟨artist, name⟩
      · rw [hp] at h; exact absurd h (by simp)
      · rw [hp] at h
        simp only [Except.ok.injEq, Prod.mk.injEq] at h
        have hs1 : s1 = ⟨raw, false⟩ := h.1.symm
        subst hs1
        simp [update_rpc]

/-- C7, witness: a push-producing call followed by a call with the same
raw title; the second is a no-op, and a call whose raw title equals the
stored previous string is a no-op. -/
theorem unchanged_track_noop_witness :
    update_rpc (fun a t => (a, t)) "pb" "P" "1. A - B - Winamp" 0 4 7
        ⟨"1. A - B - Winamp", false⟩ = .ok (⟨"1. A - B - Winamp", false⟩, none)
    ∧ update_rpc (fun a t => (a, t)) "pb" "P" "x" 0 0 0 ⟨"x", true⟩
      = .ok (⟨"x", true⟩, none) :=
  ⟨unchanged_track_noop.2 (fun a t => (a, t)) "pb" "P" "1. A - B - Winamp"
      0 0 0 0 4 7 ⟨"", false⟩ ⟨"1. A - B - Winamp", false⟩
      ⟨"Track: B", "by A", 0, "A", "pb", "Track: B", "P"⟩
      (by simp [update_rpc, normPos, pyInt]; decide),
   unchanged_track_noop.1 _ _ _ _ _ _ _ _ rfl⟩

/-! ## Claim C8: title reconstruction round-trips `" - "`

Structural lemmas about `splitDash`, then the round-trip theorem. -/

theorem sd_sep (r : List Char) :
    splitDash (' ' :: '-' :: ' ' :: r) = [] :: splitDash r := rfl

theorem sd_cons (c : Char) (rest : List Char)
    (h : ∀ r : List Char, c :: rest ≠ ' ' :: '-' :: ' ' :: r) :
    splitDash (c :: rest) = consHead c (splitDash rest) := by
  rw [splitDash.eq_def]
  split
  · simp at *
  · rename_i r heq
    exact absurd heq (h r)
  · rename_i c' rest' hne heq
    injection heq with h1 h2
    subst h1; subst h2
    rfl

theorem sd_ne_nil (l : List Char) : splitDash l ≠ [] := by
  rw [splitDash.eq_def]
  split
  · simp
  · simp
  · simp only [consHead]
    split <;> simp

theorem segOk_tail {c : Char} {rest : List Char}
    (h : segOk (c :: rest) = true) : segOk rest = true := by
  simp only [segOk, Bool.and_eq_true, beq_iff_eq, Bool.not_eq_true'] at h ⊢
  obtain ⟨hsd, hsuf⟩ := h
  refine ⟨?_, ?_⟩
  · by_cases hsep : ∃ r : List Char, c :: rest = ' ' :: '-' :: ' ' :: r
    · obtain ⟨r, hr⟩ := hsep
      rw [hr, sd_sep] at hsd
      simp at hsd
    · push_neg at hsep
      rw [sd_cons c rest hsep] at hsd
      rcases hs : splitDash rest with - | ⟨hh, tt⟩
      · exact absurd hs (sd_ne_nil rest)
      · rw [hs] at hsd
        simp only [consHead, List.cons.injEq] at hsd
        rw [hsd.1.2, hsd.2]
  · by_contra hne
    rw [Bool.not_eq_false, List.isSuffixOf_iff_suffix] at hne
    have hbig : List.isSuffixOf [' ', '-'] (c :: rest) = true := by
      rw [List.isSuffixOf_iff_suffix]
      exact hne.trans (List.suffix_cons c rest)
    simp [hsuf] at hbig

/-- Splitting `a ++ " - " ++ b` with a hygienic first segment `a` peels
off exactly `a`. -/
theorem sd_append (b : List Char) :
    ∀ a : List Char, segOk a = true →
      splitDash (a ++ sepChars ++ b) = a :: splitDash b := by
  intro a
  induction a with
  | nil =>
    intro _
    show splitDash (sepChars ++ b) = [] :: splitDash b
    rw [show sepChars ++ b = ' ' :: '-' :: ' ' :: b from rfl, sd_sep]
  | cons c rest ih =>
    intro hok
    have hsd : splitDash (c :: rest) = [c :: rest] := by
      have := hok
      simp only [segOk, Bool.and_eq_true, beq_iff_eq] at this
      exact this.1
    have hsuf : List.isSuffixOf [' ', '-'] (c :: rest) = false := by
      have := hok
      simp only [segOk, Bool.and_eq_true, Bool.not_eq_true'] at this
      exact this.2
    have heq : (c :: rest) ++ sepChars ++ b = c :: (rest ++ sepChars ++ b) := by
      simp
    rw [heq]
    have hnot : ∀ r : List Char,
        c :: (rest ++ sepChars ++ b) ≠ ' ' :: '-' :: ' ' :: r := by
      intro r hcontra
      injection hcontra with hc hrest
      subst hc
      rcases rest with - | ⟨r1, rest1⟩
      · simp [sepChars] at hrest
      · injection hrest with hr1 hrest1
        subst hr1
        rcases rest1 with - | ⟨r2, rest2⟩
        · simp [List.isSuffixOf, sepChars] at hsuf
        · injection hrest1 with hr2 hrest2
          subst hr2
          rw [sd_sep] at hsd
          simp at hsd
    rw [sd_cons c _ hnot, ih (segOk_tail hok), consHead]

/-- Splitting `joinDash mids ++ " - " ++ p` recovers the hygienic middle
segments followed by the final segment. -/
theorem sd_join_append (p : List Char) (hp : splitDash p = [p]) :
    ∀ mids : List (List Char), mids ≠ [] → (∀ m ∈ mids, segOk m = true) →
      splitDash (joinDash mids ++ sepChars ++ p) = mids ++ [p] := by
  intro mids
  induction mids with
  | nil => intro h; exact absurd rfl h
  | cons m1 t ih =>
    intro _ hall
    rcases t with - | ⟨m2, t'⟩
    · rw [joinDash, sd_append p m1 (hall m1 (by simp)), hp]
      rfl
    · rw [joinDash]
      have hassoc : (m1 ++ sepChars ++ joinDash (m2 :: t')) ++ sepChars ++ p
          = m1 ++ sepChars ++ (joinDash (m2 :: t') ++ sepChars ++ p) := by
        simp
      rw [hassoc, sd_append _ m1 (hall m1 (by simp)),
        ih (by simp) (fun m hm => hall m (by simp [hm]))]
      rfl

/-- C8.  The detector discards the last `" - "`-delimited segment and
rejoins all middle segments with `" - "`, so titles containing `" - "`
round-trip: for any hygienic first segment, non-empty list of hygienic
middle segments, and separator-free final segment, parsing yields exactly
the rejoined middle segments as the title (the artist being the
`str.strip` of the first segment).  In particular
`"3. Artist - Song - Title - Player"` at playlist position 2 (displayed
index 3) parses to artist `"Artist"` and title `"Song - Title"`. -/
theorem detector_roundtrip :
    (∀ (aSeg p : List Char) (mids : List (List Char)) (track_pos : Nat),
      segOk aSeg = true → mids ≠ [] → (∀ m ∈ mids, segOk m = true) →
      splitDash p = [p] →
      parseTrack track_pos
          (String.mk (aSeg ++ sepChars ++ (joinDash mids ++ sepChars ++ p)))
        = some (pyStrip (String.mk aSeg) (toString (track_pos + 1) ++ ". "),
                String.mk (joinDash mids)))
    ∧ parseTrack 2 "3. Artist - Song - Title - Player"
        = some ("Artist", "Song - Title") := by
  constructor
  · intro aSeg p mids track_pos ha hne hall hp
    have htl : (String.mk (aSeg ++ sepChars ++ (joinDash mids ++ sepChars ++ p))).toList
        = aSeg ++ sepChars ++ (joinDash mids ++ sepChars ++ p) := rfl
    rw [parseTrack, htl, sd_append _ aSeg ha, sd_join_append p hp mids hne hall]
    have hdl : (aSeg :: (mids ++ [p])).dropLast = aSeg :: mids := by
      rw [show aSeg :: (mids ++ [p]) = (aSeg :: mids) ++ [p] by simp,
        List.dropLast_concat]
    rw [hdl]
  · decide

/-- C8, witness: the round-trip applied to a concrete two-part title
`"Song - Part 2"`. -/
theorem detector_roundtrip_witness :
    parseTrack 8 (String.mk ("9. Someone".toList ++ sepChars ++
        (joinDash [String.toList "Song", String.toList "Part 2"] ++ sepChars
          ++ "Winamp".toList)))
      = some (pyStrip (String.mk "9. Someone".toList) (toString (8 + 1) ++ ". "),
              String.mk (joinDash [String.toList "Song", String.toList "Part 2"])) :=
  detector_roundtrip.1 _ _ _ 8 (by decide) (by decide) (by decide) (by decide)

/-- C9, counterexample.  `clean_string` is not idempotent: `.` in the lazy
regex does not match a newline, so `"(a\nb)"` survives the paren pass; the
whitespace pass then turns the newline into a space, and a second
`clean_string` call removes the whole group. -/
theorem clean_string_not_idempotent :
    clean_string (clean_string "(a\nb)") ≠ clean_string "(a\nb)"
    ∧ clean_string "(a\nb)" = "(a b)"
    ∧ clean_string (clean_string "(a\nb)") = "" := by
  have h1 : clean_string "(a\nb)" = "(a b)" := by
    simp [clean_string, collapseWS, stripWS, rmv, findClose, isSpacePy,
      List.dropWhile]
  have h2 : clean_string "(a b)" = "" := by
    simp [clean_string, collapseWS, stripWS, rmv, findClose, isSpacePy,
      List.dropWhile]
  refine ⟨?_, h1, by rw [h1, h2]⟩
  rw [h1, h2]
  decide

/-- C9, amended.  On every newline-free input the normalizer is idempotent
(after one pass no removable group and no collapsible whitespace remains),
and the concrete equalities hold.  With a newline inside a group,
idempotence fails (see the counterexample). -/
theorem clean_string_spec :
    (∀ x : String, '\n' ∉ x.toList →
        clean_string (clean_string x) = clean_string x)
    ∧ clean_string "Song (Remix) [Live]" = "Song"
    ∧ clean_string "A   B" = "A B" := by
  refine ⟨?_, ?_, ?_⟩
  · intro x hx
    have hp1nl : '\n' ∉ rmv '(' ')' x.toList :=
      fun h => hx ((rmv_sublist _ _ _).subset h)
    have hPFp : PairFree '(' ')' (rmv '(' ')' x.toList) := pairFree_rmv hx
    have hPFb : PairFree '(' ')' (rmv '[' ']' (rmv '(' ')' x.toList)) :=
      pairFree_of_sublist (rmv_sublist _ _ _) hPFp
    have hPFBb : PairFree '[' ']' (rmv '[' ']' (rmv '(' ')' x.toList)) :=
      pairFree_rmv hp1nl
    have hPFc : PairFree '(' ')'
        (collapseWS (rmv '[' ']' (rmv '(' ')' x.toList))) :=
      pairFree_collapseWS (by decide) (by decide) hPFb
    have hPFBc : PairFree '[' ']'
        (collapseWS (rmv '[' ']' (rmv '(' ')' x.toList))) :=
      pairFree_collapseWS (by decide) (by decide) hPFBb
    have hysub := stripWS_sublist (collapseWS (rmv '[' ']' (rmv '(' ')' x.toList)))
    have hPFy := pairFree_of_sublist hysub hPFc
    have hPFBy := pairFree_of_sublist hysub hPFBc
    have hcol : collapseWS (stripWS (collapseWS (rmv '[' ']' (rmv '(' ')' x.toList))))
        = stripWS (collapseWS (rmv '[' ']' (rmv '(' ')' x.toList))) := by
      have h1 := collapseWS_idem (rmv '[' ']' (rmv '(' ')' x.toList))
      exact collapsed_reverse (collapsed_dws (collapsed_reverse (collapsed_dws h1)))
    have hstr := stripWS_idem (collapseWS (rmv '[' ']' (rmv '(' ')' x.toList)))
    have hy : clean_string x
        = String.mk (stripWS (collapseWS (rmv '[' ']' (rmv '(' ')' x.toList)))) := rfl
    rw [hy]
    have hunfold : clean_string (String.mk (stripWS (collapseWS
          (rmv '[' ']' (rmv '(' ')' x.toList)))))
        = String.mk (stripWS (collapseWS (rmv '[' ']' (rmv '(' ')'
            (stripWS (collapseWS (rmv '[' ']' (rmv '(' ')' x.toList)))))))) := rfl
    rw [hunfold, rmv_eq_self hPFy, rmv_eq_self hPFBy, hcol, hstr]
  · simp [clean_string, collapseWS, stripWS, rmv, findClose, isSpacePy,
      List.dropWhile]
  · simp [clean_string, collapseWS, stripWS, rmv, findClose, isSpacePy,
      List.dropWhile]

/-- C9, witness: idempotence applied to the concrete (newline-free) input
`"Song (Remix) [Live]"`. -/
theorem clean_string_spec_witness :
    clean_string (clean_string "Song (Remix) [Live]")
      = clean_string "Song (Remix) [Live]" :=
  clean_string_spec.1 "Song (Remix) [Live]" (by decide)

/-! ## Claim C10: the session-state invariant -/

/-- C10.  Any completed poll tick preserves the invariant
`cleared = true → previous_track = ""`: the clear branch sets
`previous_track = ""` and `cleared = true` together, and the only store of
a (possibly non-empty) `previous_track` — `update_rpc` on a track change —
sets `cleared = false` in the same tick.  (A tick that dies with the
uncaught `IndexError` terminates the process, so no post-tick state
exists.) -/
theorem cleared_implies_empty_previous :
    ∀ la sk st status raw pos millis now (s s' : Session) acts,
      (s.cleared = true → s.previous_track = "") →
      tick la sk st status raw pos millis now s = .ok (s', acts) →
      (s'.cleared = true → s'.previous_track = "") := by
  intro la sk st status raw pos millis now s s' acts hinv htick
  by_cases hcond : status = .Paused ∨ (status = .Stopped ∧ s.cleared = false)
  · simp only [tick, hcond, if_true, reduceIte, Except.ok.injEq,
      Prod.mk.injEq] at htick
    obtain ⟨rfl, -⟩ := htick
    simp
  · rw [tick, if_neg hcond] at htick
    by_cases hplay : status = .Playing
    · rw [if_pos hplay] at htick
      by_cases hprev : raw = s.previous_track
      · simp only [update_rpc, hprev, if_true, reduceIte, Except.map,
          Except.ok.injEq, Prod.mk.injEq] at htick
        obtain ⟨rfl, -⟩ := htick
        exact hinv
      · simp only [update_rpc, hprev, if_false, reduceIte] at htick
        rcases hp : parseTrack pos raw with - | ⟨artist, name⟩
        · rw [hp] at htick; exact absurd htick (by simp [Except.map])
        · rw [hp] at htick
          simp only [Except.map, Except.ok.injEq, Prod.mk.injEq] at htick
          obtain ⟨rfl, -⟩ := htick
          intro hfalse
          exact absurd hfalse (by simp)
    · rw [if_neg hplay] at htick
      simp only [Except.ok.injEq, Prod.mk.injEq] at htick
      obtain ⟨rfl, -⟩ := htick
      exact hinv

/-- C10, witness: the invariant transported through a concrete `Paused`
tick starting from an invariant-satisfying state. -/
theorem cleared_implies_empty_previous_witness :
    (Session.mk "" true).previous_track = "" :=
  cleared_implies_empty_previous (fun a t => (a, t)) "pb" "P" .Paused "x" 0 0 0
    ⟨"y", false⟩ ⟨"", true⟩ [.clear] (by simp) (by simp [tick]) rfl

end WinampRPC
